import Mathlib

/-!
Verification of the anchor-resolution engine of `server.js` (collab-editor).

The engine takes proposed edits `{paraIndex, oldText, newText}` returned by a
language model, together with the paragraphs and comments that were sent, and
either recovers an exact substring anchor for each edit, relocates the edit to
a uniquely matching paragraph, or drops it with a classified reason.

Modelling conventions for the shallow embedding:
* a JavaScript string is a `List Char` (all characters involved are in the
  basic multilingual plane, so JS UTF-16 code units coincide with code points);
* a JavaScript value that may fail a `typeof x === "string"` test is an
  `Option (List Char)` (`none` = absent or not a string);
* a JavaScript number is `JsNum` (`int n`, or `nonInt` for a non-integral
  number, which every `Number.isInteger` / `Set.has`-against-integers test
  rejects);
* a JavaScript exception (the engine can in fact throw, see
  `remapUnresolvedChange`) is the `.error` case of `Except Unit`.
-/

/-- Span into the original string, as built by `buildLooseTextWithSpans`:
half-open `[start, end)` character offsets. -/
structure Span where
  start : Nat
  «end» : Nat
deriving DecidableEq, Repr

/-- Result of `buildLooseTextWithSpans`: the loose text and one span per loose
character. -/
structure LooseText where
  text : List Char
  spans : List Span
deriving DecidableEq, Repr

/-- The ECMAScript `\s` character class (WhiteSpace and LineTerminator), used
by the whitespace tests and `String.prototype.trim` in `server.js`. -/
def isJsWhitespace (c : Char) : Bool :=
  c == ' ' || c == '\t' || c == '\n' || c == '\u000B' || c == '\u000C' ||
  c == '\u000D' || c == ' ' || c == ' ' ||
  (0x2000 ≤ c.toNat && c.toNat ≤ 0x200A) ||
  c == ' ' || c == ' ' || c == ' ' || c == ' ' ||
  c == '　' || c == '﻿'

/-- `normalizeLooseChar` from `server.js` (lines 49-55): smart quotes to
straight quotes and backtick-like marks to an apostrophe, dashes to hyphen,
non-breaking space to space. -/
def normalizeLooseChar (ch : Char) : Char :=
  if ch = '‘' ∨ ch = '’' ∨ ch = '\x60' ∨ ch = '´' then '\x27'
  else if ch = '“' ∨ ch = '”' then '"'
  else if ch = '–' ∨ ch = '—' ∨ ch = '−' then '-'
  else if ch = ' ' then ' '
  else ch

/-- The inner `while` of `buildLooseTextWithSpans` (lines 68-72): starting at
original offset `i`, consume the whitespace run; returns the remaining text and
the offset one past the run. -/
def skipWhitespaceRun : List Char → Nat → List Char × Nat
  | [], i => ([], i)
  | c :: rest, i =>
    if isJsWhitespace (normalizeLooseChar c) then skipWhitespaceRun rest (i + 1)
    else (c :: rest, i)

/-- The main `while` loop of `buildLooseTextWithSpans` (lines 61-83), made
structurally recursive on a fuel argument (each iteration consumes at least one
character, so `fuel = text.length` at the top call is enough). `out`/`spans`
are the accumulated output arrays. -/
def buildLooseGo : Nat → List Char → Nat → List Char → List Span → List Char × List Span
  | 0, _, _, out, spans => (out, spans)
  | _ + 1, [], _, out, spans => (out, spans)
  | fuel + 1, c :: rest, i, out, spans =>
    let ch := normalizeLooseChar c
    if isJsWhitespace ch then
      -- a whitespace run collapses to one space (deduplicated against the
      -- previous output character), whose span covers the whole run
      let s := skipWhitespaceRun rest (i + 1)
      if out.isEmpty || out.getLast? != some ' ' then
        buildLooseGo fuel s.1 s.2 (out ++ [' ']) (spans ++ [⟨i, s.2⟩])
      else
        buildLooseGo fuel s.1 s.2 out spans
    else
      buildLooseGo fuel rest (i + 1) (out ++ [ch]) (spans ++ [⟨i, i + 1⟩])

/-- `buildLooseTextWithSpans` from `server.js` (lines 57-86). -/
def buildLooseTextWithSpans (text : List Char) : LooseText :=
  let r := buildLooseGo text.length text 0 [] []
  { text := r.1, spans := r.2 }

/-- `hay.indexOf(needle)` on JS strings: first index at which `needle` occurs
as a contiguous substring (`none` for the JS result `-1`). -/
def jsIndexOf (hay needle : List Char) : Option Nat :=
  if needle.isPrefixOf hay then some 0
  else
    match hay with
    | [] => none
    | _ :: t => (jsIndexOf t needle).map (fun n => n + 1)

/-- `hay.includes(needle)` on JS strings. -/
def jsIncludes (hay needle : List Char) : Bool :=
  (jsIndexOf hay needle).isSome

/-- `s.slice(a, b)` on JS strings, for non-negative clamped arguments (every
call site in the engine passes such arguments). -/
def jsSlice (l : List Char) (a b : Nat) : List Char :=
  (l.take b).drop a

/-- `s.trim()` on JS strings. -/
def jsTrim (l : List Char) : List Char :=
  ((l.dropWhile isJsWhitespace).reverse.dropWhile isJsWhitespace).reverse

/-- A JavaScript number as far as the engine observes it: an integer, or a
number that is not an integer (rejected by `Number.isInteger` and never a
member of the integer-keyed paragraph map / valid-index set). -/
inductive JsNum where
  | int (n : Int)
  | nonInt
deriving DecidableEq, Repr

/-- A comment object as used by the engine. `start`/`end` are `some n` exactly
when the field holds an integral number (`Number.isInteger` accepts it);
`selectedText` is `some s` exactly when the field holds a string; `paraIndex`
is `some j` exactly when the field holds a number. The instruction text of the
comment is not read by the engine and is omitted. -/
structure Comment where
  paraIndex : Option JsNum
  start : Option Int
  «end» : Option Int
  selectedText : Option (List Char)
deriving DecidableEq, Repr

/-- An entry of the untrusted `comments` array of the request body: `nullish`
for `null`/`undefined` (property access throws), `obj` for anything whose
properties can be read (non-object primitives read all fields as absent). -/
inductive CommentEntry where
  | nullish
  | obj (c : Comment)
deriving DecidableEq, Repr

/-- An entry of the untrusted `changes` array parsed from the model response:
`nullish` for `null`/`undefined` (the pipeline only uses optional chaining on
it), `obj` otherwise, with each field `some _` exactly when it holds a value of
the type the pipeline tests for. -/
inductive ChangeEntry where
  | nullish
  | obj (paraIndex : Option JsNum) (oldText : Option (List Char))
      (newText : Option (List Char))
deriving DecidableEq, Repr

/-- An edit emitted by the validation pipeline (`validChanges.push` at
`server.js` lines 509-513). -/
structure ResolvedEdit where
  paraIndex : Int
  oldText : List Char
  newText : List Char
deriving DecidableEq, Repr

/-- JS `a || b` on a value that is a string or `null`: `a` wins unless it is
falsy (`null` or the empty string). -/
def jsOrStr (a b : Option (List Char)) : Option (List Char) :=
  match a with
  | some s => if s.isEmpty then b else some s
  | none => b

/-- Step 2 of `resolveOldTextFromParagraph` (`server.js` lines 94-107): loose
normalization of both strings, search in loose space, and span back-mapping of
the first occurrence into an exact slice of the original paragraph. -/
def looseRepairStep (paraText proposedOldText : List Char) : Option (List Char) :=
  if proposedOldText.isEmpty then none
  else
    let paraLoose := buildLooseTextWithSpans paraText
    let oldLoose := jsTrim (buildLooseTextWithSpans proposedOldText).text
    if oldLoose.isEmpty then none
    else
      match jsIndexOf paraLoose.text oldLoose with
      | none => none
      | some looseIdx =>
        match paraLoose.spans.get? looseIdx,
            paraLoose.spans.get? (looseIdx + oldLoose.length - 1) with
        | some startSpan, some endSpan =>
          if startSpan.start < endSpan.«end» then
            some (jsSlice paraText startSpan.start endSpan.«end»)
          else none
        | _, _ => none

/-- Steps 3-4 of `resolveOldTextFromParagraph` (`server.js` lines 110-128):
with exactly one attached comment, trust its character range (when valid and
yielding a non-empty slice), else its `selectedText` (when a non-empty exact
substring). -/
def commentAnchorStep (paraText : List Char) (paraComments : List Comment) :
    Option (List Char) :=
  match paraComments with
  | [c] =>
    let ranged : Option (List Char) :=
      match c.start, c.«end» with
      | some s, some e =>
        if 0 ≤ s ∧ s < e ∧ e ≤ (paraText.length : Int) then
          let slice := jsSlice paraText s.toNat e.toNat
          if slice.isEmpty then none else some slice
        else none
      | _, _ => none
    match ranged with
    | some r => some r
    | none =>
      match c.selectedText with
      | some st => if !st.isEmpty && jsIncludes paraText st then some st else none
      | none => none
  | _ => none

/-- `resolveOldTextFromParagraph` from `server.js` (lines 88-131). `paraText`
and `proposedOldText` are `none` when the JS value is not a string; an empty
`paraText` fails the same `!paraText` guard as a non-string one. -/
def resolveOldTextFromParagraph (paraText : Option (List Char))
    (proposedOldText : Option (List Char)) (paraComments : List Comment) :
    Option (List Char) :=
  match paraText with
  | none => none
  | some p =>
    if p.isEmpty then none
    else
      match proposedOldText with
      | some o =>
        if !o.isEmpty && jsIncludes p o then some o
        else
          match looseRepairStep p o with
          | some r => some r
          | none => commentAnchorStep p paraComments
      | none => commentAnchorStep p paraComments

/-- The context the validation loop hands to the remapper: the set of
paragraph indices actually sent (in scan order), the index-to-text lookup
(`none` for an absent index or a non-string entry), and the raw comments array
of the request. -/
structure Ctx where
  validIndices : List Int
  paragraphLookup : Int → Option (List Char)
  comments : List CommentEntry

/-- `commentsByPara.get(k)` for a number key `k` (`server.js` lines 295-301):
the comments whose `paraIndex` is the number `k`, in request order; entries
that are nullish or have a non-number `paraIndex` are skipped. An absent key
gives the empty list, as every group in the map is non-empty. -/
def commentsByPara (comments : List CommentEntry) (k : JsNum) : List Comment :=
  comments.filterMap fun entry =>
    match entry with
    | .nullish => none
    | .obj c =>
      match c.paraIndex with
      | some j => if j = k then some c else none
      | none => none

/-- `paragraphLookup.get(x)` where `x` is an arbitrary JS value (possibly
`undefined` or a non-integral number): only an integer key can hit. -/
def jsNumLookup (lookup : Int → Option (List Char)) (k : Option JsNum) :
    Option (List Char) :=
  match k with
  | some (JsNum.int n) => lookup n
  | _ => none

/-- `commentsByPara.get(anchor.paraIndex) || [anchor]` (`server.js` lines
178, 182): the anchor's comment group, or the singleton anchor when the key is
absent (a present group is never empty, and a non-empty array is truthy). -/
def anchorCommentList (comments : List CommentEntry) (anchor : Comment) :
    List Comment :=
  let g := match anchor.paraIndex with
    | some k => commentsByPara comments k
    | none => []
  if g.isEmpty then [anchor] else g

/-- `validIndices.has(x)` where `x` is an arbitrary JS value: only an integer
member of the set can hit. -/
def jsSetHas (validIndices : List Int) (k : Option JsNum) : Bool :=
  match k with
  | some (JsNum.int n) => validIndices.contains n
  | _ => false

/-- A result of `remapUnresolvedChange`: the (unchecked) paragraph index the
edit is relocated to, the resolved old text, and the reason tag. -/
structure RemapResult where
  paraIndex : Option JsNum
  oldText : List Char
  reason : String
deriving DecidableEq, Repr

/-- `findUniqueParagraphByExactText` loop (`server.js` lines 143-149) with the
accumulated `ms` array: abort with `null` the instant a second match
appears, else report the single match. -/
def findUniqueExactGo (lookup : Int → Option (List Char)) (text : List Char) :
    List Int → List Int → Option Int
  | [], ms => if ms.length == 1 then ms.head? else none
  | idx :: rest, ms =>
    let ms' :=
      match lookup idx with
      | some paraText => if jsIncludes paraText text then ms ++ [idx] else ms
      | none => ms
    if ms'.length > 1 then none else findUniqueExactGo lookup text rest ms'

/-- `findUniqueParagraphByExactText` from `server.js` (lines 141-150). -/
def findUniqueParagraphByExactText (lookup : Int → Option (List Char))
    (validIndices : List Int) (text : List Char) : Option Int :=
  if text.isEmpty then none else findUniqueExactGo lookup text validIndices []

/-- `findUniqueParagraphByLooseText` loop (`server.js` lines 157-164). -/
def findUniqueLooseGo (lookup : Int → Option (List Char)) (target : List Char) :
    List Int → List Int → Option Int
  | [], ms => if ms.length == 1 then ms.head? else none
  | idx :: rest, ms =>
    let ms' :=
      match lookup idx with
      | some paraText =>
        if !paraText.isEmpty &&
            jsIncludes (buildLooseTextWithSpans paraText).text target then
          ms ++ [idx]
        else ms
      | none => ms
    if ms'.length > 1 then none else findUniqueLooseGo lookup target rest ms'

/-- `findUniqueParagraphByLooseText` from `server.js` (lines 152-166). -/
def findUniqueParagraphByLooseText (lookup : Int → Option (List Char))
    (validIndices : List Int) (text : List Char) : Option Int :=
  if (jsTrim text).isEmpty then none
  else
    let target := jsTrim (buildLooseTextWithSpans text).text
    if target.isEmpty then none
    else findUniqueLooseGo lookup target validIndices []

/-- The single-comment override of `remapUnresolvedChange` (`server.js` lines
171-191). When the request has exactly one comment entry and that entry is
`null`/`undefined`, reading `anchor.paraIndex` throws a `TypeError`, modelled
as `.error ()`. -/
def singleCommentOverrideStep (oldText : List Char) (ctx : Ctx) :
    Except Unit (Option RemapResult) :=
  match ctx.comments with
  | [CommentEntry.nullish] => .error ()
  | [CommentEntry.obj anchor] =>
    let anchorParaText := jsNumLookup ctx.paragraphLookup anchor.paraIndex
    let anchorComments := anchorCommentList ctx.comments anchor
    let anchored := jsOrStr
      (resolveOldTextFromParagraph anchorParaText (some oldText) anchorComments)
      (resolveOldTextFromParagraph anchorParaText anchor.selectedText anchorComments)
    match anchored with
    | some a =>
      if a.isEmpty then .ok none
      else .ok (some ⟨anchor.paraIndex, a, "single-comment-anchor"⟩)
    | none => .ok none
  | _ => .ok none

/-- The unique exact-substring search step of `remapUnresolvedChange`
(`server.js` lines 193-199); on a resolution failure it falls through to the
loose search. -/
def remapByExactSearch (oldText : List Char) (ctx : Ctx) : Option RemapResult :=
  match findUniqueParagraphByExactText ctx.paragraphLookup ctx.validIndices oldText with
  | some exactIdx =>
    match resolveOldTextFromParagraph (ctx.paragraphLookup exactIdx) (some oldText)
        (commentsByPara ctx.comments (JsNum.int exactIdx)) with
    | some r =>
      if r.isEmpty then none else some ⟨some (JsNum.int exactIdx), r, "unique-exact"⟩
    | none => none
  | none => none

/-- The unique loose-substring search step of `remapUnresolvedChange`
(`server.js` lines 201-207). -/
def remapByLooseSearch (oldText : List Char) (ctx : Ctx) : Option RemapResult :=
  match findUniqueParagraphByLooseText ctx.paragraphLookup ctx.validIndices oldText with
  | some looseIdx =>
    match resolveOldTextFromParagraph (ctx.paragraphLookup looseIdx) (some oldText)
        (commentsByPara ctx.comments (JsNum.int looseIdx)) with
    | some r =>
      if r.isEmpty then none else some ⟨some (JsNum.int looseIdx), r, "unique-loose"⟩
    | none => none
  | none => none

/-- `remapUnresolvedChange` from `server.js` (lines 168-210), for a change
whose `oldText` passed the string shape check. -/
def remapUnresolvedChange (oldText : List Char) (ctx : Ctx) :
    Except Unit (Option RemapResult) :=
  match singleCommentOverrideStep oldText ctx with
  | .error e => .error e
  | .ok (some r) => .ok (some r)
  | .ok none =>
    match remapByExactSearch oldText ctx with
    | some r => .ok (some r)
    | none => .ok (remapByLooseSearch oldText ctx)

/-- Reasons of the `dropStats` histogram (`server.js` lines 444-449). -/
inductive DropReason where
  | invalidShape
  | invalidIndex
  | missingParagraph
  | unresolvedOldText
deriving DecidableEq, Repr

/-- Classification of one proposed change by one iteration of the validation
loop: dropped with a reason, or accepted as a resolved edit. -/
inductive Outcome where
  | dropped (reason : DropReason)
  | accepted (edit : ResolvedEdit)
deriving DecidableEq, Repr

/-- Lines 480-506 of the validation loop: the remap attempt and its
classification, reached when direct resolution produced a falsy result.
`.error ()` propagates the `TypeError` the remapper can throw. -/
def remapOutcome (ctx : Ctx) (oldText newText : List Char) : Except Unit Outcome :=
  match remapUnresolvedChange oldText ctx with
  | .error e => .error e
  | .ok (some rm) =>
    match rm.paraIndex with
    | some (JsNum.int m) =>
      if ctx.validIndices.contains m then
        if rm.oldText.isEmpty then .ok (.dropped .unresolvedOldText)
        else .ok (.accepted ⟨m, rm.oldText, newText⟩)
      else .ok (.dropped .unresolvedOldText)
    | _ => .ok (.dropped .unresolvedOldText)
  | .ok none => .ok (.dropped .unresolvedOldText)

/-- One iteration of the validation loop of `POST /api/revise` (`server.js`
lines 451-514): shape check, index check, paragraph lookup, direct resolution,
and on direct failure the remap attempt (`remapOutcome`). -/
def processChange (ctx : Ctx) (c : ChangeEntry) : Except Unit Outcome :=
  match c with
  | .nullish => .ok (.dropped .invalidShape)
  | .obj paraIndexV oldTextV newTextV =>
    match paraIndexV, oldTextV, newTextV with
    | some paraIndex, some oldText, some newText =>
      match paraIndex with
      | .nonInt => .ok (.dropped .invalidIndex)
      | .int i =>
        if ctx.validIndices.contains i then
          match ctx.paragraphLookup i with
          | none => .ok (.dropped .missingParagraph)
          | some paraText =>
            if paraText.isEmpty then .ok (.dropped .missingParagraph)
            else
              match resolveOldTextFromParagraph (some paraText) (some oldText)
                  (commentsByPara ctx.comments (JsNum.int i)) with
              | some r =>
                if r.isEmpty then remapOutcome ctx oldText newText
                else .ok (.accepted ⟨i, r, newText⟩)
              | none => remapOutcome ctx oldText newText
        else .ok (.dropped .invalidIndex)
    | _, _, _ => .ok (.dropped .invalidShape)

/-- The `for (const c of changes)` loop of `POST /api/revise`, accumulating
`validChanges`; a thrown exception aborts the whole batch (it is caught only
by the route-level `try`/`catch`, which discards `validChanges` and answers
500). -/
def reviseLoop (ctx : Ctx) : List ChangeEntry → List ResolvedEdit →
    Except Unit (List ResolvedEdit)
  | [], validChanges => .ok validChanges
  | c :: rest, validChanges =>
    match processChange ctx c with
    | .error e => .error e
    | .ok (.dropped _) => reviseLoop ctx rest validChanges
    | .ok (.accepted e) => reviseLoop ctx rest (validChanges ++ [e])

/-- The full-mode context of `POST /api/revise` (`server.js` lines 322-324):
`validIndices` is `0..paragraphs.length-1` in ascending order and the lookup
maps `i` to the `i`-th entry when it is a string. -/
def fullModeCtx (paragraphs : List (Option (List Char)))
    (comments : List CommentEntry) : Ctx where
  validIndices := (List.range paragraphs.length).map Int.ofNat
  paragraphLookup := fun i =>
    if 0 ≤ i then (paragraphs.get? i.toNat).join else none
  comments := comments

/-- The validation stage of `POST /api/revise` in full mode: the `changes`
array of the JSON response, or `.error ()` when the loop throws. -/
def processRevise (paragraphs : List (Option (List Char)))
    (comments : List CommentEntry) (changes : List ChangeEntry) :
    Except Unit (List ResolvedEdit) :=
  reviseLoop (fullModeCtx paragraphs comments) changes []

/-- Decidable equality for `Except`, used to evaluate the pipeline on concrete
inputs. -/
instance {e a : Type} [DecidableEq e] [DecidableEq a] : DecidableEq (Except e a)
  | .ok x, .ok y => if h : x = y then .isTrue (by rw [h]) else .isFalse (by simp [h])
  | .ok _, .error _ => .isFalse (by simp)
  | .error _, .ok _ => .isFalse (by simp)
  | .error x, .error y => if h : x = y then .isTrue (by rw [h]) else .isFalse (by simp [h])

/-- Characters of a well-formed loose text: fixed points of the normalizer
whose only whitespace is the plain space. -/
def LooseChar (c : Char) : Prop :=
  normalizeLooseChar c = c ∧ (isJsWhitespace c = true → c = ' ')

/-- The scan condition of `findUniqueParagraphByExactText` at index `i`: the
looked-up entry is a string containing `text`. -/
def paragraphHasExact (lookup : Int → Option (List Char)) (text : List Char)
    (i : Int) : Bool :=
  match lookup i with
  | some paraText => jsIncludes paraText text
  | none => false

example : (buildLooseTextWithSpans "a  b".toList).text = "a b".toList := by decide
example : (buildLooseTextWithSpans "a—b".toList).text = "a-b".toList := by decide
example : jsIndexOf "hello".toList "ll".toList = some 2 := by decide
example : jsTrim "  a b ".toList = "a b".toList := by decide
example :
    (buildLooseTextWithSpans "He said “hello—world”".toList).text
      = "He said \"hello-world\"".toList := by decide
example :
    resolveOldTextFromParagraph (some "He said “hello—world”".toList)
      (some "hello-world".toList) [] = some "hello—world".toList := by decide
example :
    resolveOldTextFromParagraph (some "The quick brown fox".toList)
      (some "completely unrelated text".toList) [⟨none, some 5, some 10, none⟩]
      = some "uick ".toList := by decide
example :
    processRevise [some "hello world".toList] []
      [ChangeEntry.obj (some (JsNum.int 0)) (some "hello".toList) (some "hi".toList)]
      = .ok [⟨0, "hello".toList, "hi".toList⟩] := by decide
example :
    processRevise [some "a".toList] [CommentEntry.nullish]
      [ChangeEntry.obj (some (JsNum.int 0)) (some "zz".toList) (some "y".toList)]
      = .error () := by decide

/-! ### Basic facts about the JS string primitives -/

/-- `List.isPrefixOf` agrees with the `<+:` relation on `Char` lists. -/
theorem isPrefixOf_true_iff (l1 l2 : List Char) :
    l1.isPrefixOf l2 = true ↔ l1 <+: l2 := by
  exact List.isPrefixOf_iff_prefix

/-- A successful `jsIndexOf` means the needle occurs at the reported index. -/
theorem jsIndexOf_some_drop (hay needle : List Char) (idx : Nat)
    (h : jsIndexOf hay needle = some idx) : needle <+: hay.drop idx := by
  induction hay generalizing idx with
  | nil =>
    unfold jsIndexOf at h
    split at h
    · rename_i hp
      cases h
      exact (isPrefixOf_true_iff _ _).mp hp
    · cases h
  | cons c t ih =>
    unfold jsIndexOf at h
    split at h
    · rename_i hp
      cases h
      exact (isPrefixOf_true_iff _ _).mp hp
    · rcases Option.map_eq_some'.mp h with ⟨n, hn, rfl⟩
      simpa using ih n hn

/-- `jsIncludes` agrees with the contiguous-substring relation `<:+:`. -/
theorem jsIncludes_true_iff (hay needle : List Char) :
    jsIncludes hay needle = true ↔ needle <:+: hay := by
  unfold jsIncludes
  induction hay with
  | nil =>
    unfold jsIndexOf
    constructor
    · intro h
      split at h
      · rename_i hp
        exact ((isPrefixOf_true_iff _ _).mp hp).isInfix
      · simp at h
    · intro h
      rw [List.infix_nil] at h
      subst h
      simp
  | cons c t ih =>
    unfold jsIndexOf
    constructor
    · intro h
      split at h
      · rename_i hp
        exact ((isPrefixOf_true_iff _ _).mp hp).isInfix
      · rw [List.infix_cons_iff]
        right
        rw [← ih]
        simpa using h
    · intro h
      split
      · simp
      · rename_i hp
        rw [List.infix_cons_iff] at h
        rcases h with h | h
        · exact absurd ((isPrefixOf_true_iff _ _).mpr h) (by simpa using hp)
        · simpa using ih.mpr h

/-- `jsSlice` always carves a contiguous substring out of the string. -/
theorem jsSlice_isInfixOf_self (l : List Char) (a b : Nat) :
    jsSlice l a b <:+: l := by
  refine ⟨(l.take b).take a, l.drop b, ?_⟩
  show (l.take b).take a ++ (l.take b).drop a ++ l.drop b = l
  rw [List.take_append_drop, List.take_append_drop]

/-- Length of a `jsSlice`. -/
theorem jsSlice_length (l : List Char) (a b : Nat) :
    (jsSlice l a b).length = min b l.length - a := by
  simp [jsSlice]

/-! ### Every resolution result is carved out of the paragraph -/

/-- The loose-repair step only ever returns a slice of the paragraph. -/
theorem looseRepairStep_isInfixOf (p o r : List Char)
    (h : looseRepairStep p o = some r) : r <:+: p := by
  unfold looseRepairStep at h
  by_cases h0 : o.isEmpty = true
  · rw [if_pos h0] at h
    cases h
  · rw [if_neg h0] at h
    simp only at h
    split at h
    · cases h
    · split at h
      · cases h
      · split at h
        · split at h
          · cases h
            exact jsSlice_isInfixOf_self ..
          · cases h
        · cases h

/-- The single-comment anchor step only ever returns a slice of the paragraph
or a checked exact substring. -/
theorem commentAnchorStep_isInfixOf (p : List Char) (cs : List Comment)
    (r : List Char) (h : commentAnchorStep p cs = some r) : r <:+: p := by
  unfold commentAnchorStep at h
  split at h
  · rename_i c
    simp only at h
    split at h
    · rename_i hr
      cases h
      split at hr
      · split at hr
        · split at hr
          · cases hr
          · cases hr
            exact jsSlice_isInfixOf_self ..
        · cases hr
      · cases hr
    · rename_i hr
      split at h
      · rename_i st hst
        split at h
        · rename_i hcond
          cases h
          exact (jsIncludes_true_iff _ _).mp ((Bool.and_eq_true ..).mp hcond).2
        · cases h
      · cases h
  · cases h

/-- Any successful resolution returns a contiguous substring of the paragraph
text (which in particular had to be a non-empty string). -/
theorem resolve_isInfixOf (pt ot : Option (List Char)) (cs : List Comment)
    (r : List Char) (h : resolveOldTextFromParagraph pt ot cs = some r) :
    ∃ p, pt = some p ∧ r <:+: p := by
  cases pt with
  | none => cases h
  | some p =>
    refine ⟨p, rfl, ?_⟩
    unfold resolveOldTextFromParagraph at h
    simp only at h
    by_cases hp : p.isEmpty = true
    · rw [if_pos hp] at h
      cases h
    · rw [if_neg hp] at h
      split at h
      · rename_i o
        by_cases hex : (!o.isEmpty && jsIncludes p o) = true
        · rw [if_pos hex] at h
          cases h
          exact (jsIncludes_true_iff _ _).mp ((Bool.and_eq_true ..).mp hex).2
        · rw [if_neg hex] at h
          rcases hl : looseRepairStep p o with _ | rr
          · rw [hl] at h
            exact commentAnchorStep_isInfixOf _ _ _ h
          · rw [hl] at h
            cases h
            exact looseRepairStep_isInfixOf _ _ _ hl
      · exact commentAnchorStep_isInfixOf _ _ _ h

/-! ### The remapper also only returns substrings of real paragraphs -/

/-- JS `a || b` on string-or-null values: the result comes from one side. -/
theorem jsOrStr_eq_some (a b : Option (List Char)) (r : List Char)
    (h : jsOrStr a b = some r) : a = some r ∨ b = some r := by
  unfold jsOrStr at h
  split at h
  · rename_i s
    split at h
    · exact Or.inr h
    · exact Or.inl h
  · exact Or.inr h

/-- If the single-comment override produces a result with an integer paragraph
index, the resolved text is a substring of the looked-up paragraph. -/
theorem singleCommentOverride_ok_some (ot : List Char) (ctx : Ctx)
    (rm : RemapResult) (h : singleCommentOverrideStep ot ctx = .ok (some rm))
    (m : Int) (hm : rm.paraIndex = some (JsNum.int m)) :
    ∃ p, ctx.paragraphLookup m = some p ∧ rm.oldText <:+: p := by
  unfold singleCommentOverrideStep at h
  split at h
  · cases h
  · rename_i anchor
    simp only at h
    split at h
    · rename_i a ha
      split at h
      · cases h
      · cases h
        simp only at hm
        rcases jsOrStr_eq_some _ _ _ ha with h1 | h1 <;>
          · rcases resolve_isInfixOf _ _ _ _ h1 with ⟨p, hp, hinf⟩
            refine ⟨p, ?_, hinf⟩
            rw [hm] at hp
            exact hp
    · cases h
  · cases h

/-- Soundness of the unique exact-substring remap step. -/
theorem remapByExactSearch_sound (ot : List Char) (ctx : Ctx) (rm : RemapResult)
    (h : remapByExactSearch ot ctx = some rm) (m : Int)
    (hm : rm.paraIndex = some (JsNum.int m)) :
    ∃ p, ctx.paragraphLookup m = some p ∧ rm.oldText <:+: p := by
  unfold remapByExactSearch at h
  split at h
  · rename_i exactIdx hfind
    split at h
    · rename_i rr hrr
      split at h
      · cases h
      · cases h
        simp only [Option.some.injEq, JsNum.int.injEq] at hm
        subst hm
        rcases resolve_isInfixOf _ _ _ _ hrr with ⟨p, hp, hinf⟩
        exact ⟨p, hp, hinf⟩
    · cases h
  · cases h

/-- Soundness of the unique loose-substring remap step. -/
theorem remapByLooseSearch_sound (ot : List Char) (ctx : Ctx) (rm : RemapResult)
    (h : remapByLooseSearch ot ctx = some rm) (m : Int)
    (hm : rm.paraIndex = some (JsNum.int m)) :
    ∃ p, ctx.paragraphLookup m = some p ∧ rm.oldText <:+: p := by
  unfold remapByLooseSearch at h
  split at h
  · rename_i looseIdx hfind
    split at h
    · rename_i rr hrr
      split at h
      · cases h
      · cases h
        simp only [Option.some.injEq, JsNum.int.injEq] at hm
        subst hm
        rcases resolve_isInfixOf _ _ _ _ hrr with ⟨p, hp, hinf⟩
        exact ⟨p, hp, hinf⟩
    · cases h
  · cases h

/-- Any remap result with an integer paragraph index resolves to a substring
of the paragraph at that index. -/
theorem remapUnresolvedChange_ok_some (ot : List Char) (ctx : Ctx)
    (rm : RemapResult) (h : remapUnresolvedChange ot ctx = .ok (some rm))
    (m : Int) (hm : rm.paraIndex = some (JsNum.int m)) :
    ∃ p, ctx.paragraphLookup m = some p ∧ rm.oldText <:+: p := by
  unfold remapUnresolvedChange at h
  split at h
  · cases h
  · rename_i r hov
    cases h
    exact singleCommentOverride_ok_some _ _ _ hov _ hm
  · split at h
    · rename_i r hex
      cases h
      exact remapByExactSearch_sound _ _ _ hex _ hm
    · have hl : remapByLooseSearch ot ctx = some rm := by
        injection h
      exact remapByLooseSearch_sound _ _ _ hl _ hm

/-! ### Classification lemmas for the validation loop -/

/-- An edit accepted by the remap path is anchored in the paragraph it was
relocated to, and keeps the proposed replacement text. -/
theorem remapOutcome_accepted (ctx : Ctx) (ot nt : List Char) (e : ResolvedEdit)
    (h : remapOutcome ctx ot nt = .ok (.accepted e)) :
    (∃ p, ctx.paragraphLookup e.paraIndex = some p ∧ e.oldText <:+: p) ∧
      e.newText = nt := by
  unfold remapOutcome at h
  split at h
  · cases h
  · rename_i rm
    split at h
    · rename_i m hm
      split at h
      · split at h
        · cases h
        · cases h
          exact ⟨remapUnresolvedChange_ok_some _ _ _ (by assumption) _ hm, rfl⟩
      · cases h
    · cases h
  · cases h

/-- An edit accepted by one loop iteration is anchored in the paragraph at its
final index, and its replacement text is the proposed one; moreover the change
it came from necessarily had string `oldText`/`newText` fields, the latter
equal to the emitted `newText`. -/
theorem processChange_accepted (ctx : Ctx) (c : ChangeEntry) (e : ResolvedEdit)
    (h : processChange ctx c = .ok (.accepted e)) :
    (∃ p, ctx.paragraphLookup e.paraIndex = some p ∧ e.oldText <:+: p) ∧
      ∃ pi ot, c = ChangeEntry.obj pi ot (some e.newText) := by
  unfold processChange at h
  split at h
  · cases h
  · rename_i pv ov nv
    split at h
    · rename_i paraIndex oldText newText
      split at h
      · cases h
      · rename_i i
        split at h
        · split at h
          · cases h
          · rename_i paraText hlook
            split at h
            · cases h
            · split at h
              · rename_i r hres
                split at h
                · rcases remapOutcome_accepted _ _ _ _ h with ⟨hp, rfl⟩
                  exact ⟨hp, _, _, rfl⟩
                · cases h
                  rcases resolve_isInfixOf _ _ _ _ hres with ⟨p, hp, hinf⟩
                  cases hp
                  exact ⟨⟨paraText, hlook, hinf⟩, _, _, rfl⟩
              · rcases remapOutcome_accepted _ _ _ _ h with ⟨hp, rfl⟩
                exact ⟨hp, _, _, rfl⟩
        · cases h
    · cases h

/-- Membership in the accumulated `validChanges` after the loop: an edit of
the final array was already in the accumulator or was accepted by some
iteration. -/
theorem reviseLoop_mem (ctx : Ctx) (cs : List ChangeEntry)
    (acc out : List ResolvedEdit) (h : reviseLoop ctx cs acc = .ok out)
    (e : ResolvedEdit) (he : e ∈ out) :
    e ∈ acc ∨ ∃ c ∈ cs, processChange ctx c = .ok (.accepted e) := by
  induction cs generalizing acc with
  | nil =>
    cases h
    exact Or.inl he
  | cons c rest ih =>
    unfold reviseLoop at h
    split at h
    · cases h
    · rcases ih _ h with hacc | ⟨c', hc', hac⟩
      · exact Or.inl hacc
      · exact Or.inr ⟨c', List.mem_cons_of_mem _ hc', hac⟩
    · rename_i e' hacc'
      rcases ih _ h with hacc | ⟨c', hc', hac⟩
      · rcases List.mem_append.mp hacc with hl | hr
        · exact Or.inl hl
        · rcases List.mem_singleton.mp hr with rfl
          exact Or.inr ⟨c, List.mem_cons_self .., hacc'⟩
      · exact Or.inr ⟨c', List.mem_cons_of_mem _ hc', hac⟩

/-! ### Claim theorems: pipeline-level properties -/

/-- C1: substring invariant of the whole pipeline — every edit in the
`changes` array returned by the full-mode validation stage of `POST
/api/revise` has its final `oldText` as a literal contiguous substring of the
paragraph entry at its final `paraIndex`, for every input batch of proposed
changes, comments, and paragraphs. -/
theorem C1_substring_invariant (paragraphs : List (Option (List Char)))
    (comments : List CommentEntry) (changes : List ChangeEntry)
    (out : List ResolvedEdit)
    (hrun : processRevise paragraphs comments changes = .ok out)
    (e : ResolvedEdit) (he : e ∈ out) :
    ∃ p, 0 ≤ e.paraIndex ∧ paragraphs.get? e.paraIndex.toNat = some (some p) ∧
      e.oldText <:+: p := by
  rcases reviseLoop_mem _ _ _ _ hrun e he with hacc | ⟨c, _, hac⟩
  · simp at hacc
  · rcases (processChange_accepted _ _ _ hac).1 with ⟨p, hp, hinf⟩
    simp only [fullModeCtx] at hp
    by_cases h0 : (0 : Int) ≤ e.paraIndex
    · rw [if_pos h0] at hp
      exact ⟨p, h0, Option.join_eq_some.mp hp, hinf⟩
    · rw [if_neg h0] at hp
      cases hp

/-- Witness for C1 at a concrete batch: one paragraph, one exact edit. -/
theorem C1_witness :
    ∃ p, 0 ≤ (⟨0, "hello".toList, "hi".toList⟩ : ResolvedEdit).paraIndex ∧
      [some "hello world".toList].get?
          (⟨0, "hello".toList, "hi".toList⟩ : ResolvedEdit).paraIndex.toNat
        = some (some p) ∧
      (⟨0, "hello".toList, "hi".toList⟩ : ResolvedEdit).oldText <:+: p :=
  C1_substring_invariant [some "hello world".toList] []
    [ChangeEntry.obj (some (JsNum.int 0)) (some "hello".toList) (some "hi".toList)]
    [⟨0, "hello".toList, "hi".toList⟩] (by decide) _ (by decide)

/-- C7: exact match passthrough — a non-empty proposed old text that is a
literal substring of the paragraph is returned unchanged by the resolver, for
every comment list, and the pipeline then emits the proposed `oldText`
verbatim (no repair). -/
theorem C7_exact_match_passthrough (p o : List Char) (cs : List Comment)
    (ho : o ≠ []) (hin : o <:+: p) :
    resolveOldTextFromParagraph (some p) (some o) cs = some o ∧
    ∀ (ctx : Ctx) (i : Int) (nt : List Char),
      ctx.validIndices.contains i = true →
      ctx.paragraphLookup i = some p →
      processChange ctx (ChangeEntry.obj (some (JsNum.int i)) (some o) (some nt))
        = .ok (.accepted ⟨i, o, nt⟩) := by
  have hpne : p ≠ [] := fun hp => ho (List.infix_nil.mp (hp ▸ hin))
  have hpe : p.isEmpty = false := by
    cases p with
    | nil => exact absurd rfl hpne
    | cons a t => rfl
  have hoe : o.isEmpty = false := by
    cases o with
    | nil => exact absurd rfl ho
    | cons a t => rfl
  have hres : ∀ cs' : List Comment,
      resolveOldTextFromParagraph (some p) (some o) cs' = some o := by
    intro cs'
    simp only [resolveOldTextFromParagraph]
    rw [hpe]
    simp [hoe, (jsIncludes_true_iff p o).mpr hin]
  refine ⟨hres cs, ?_⟩
  intro ctx i nt hci hcl
  have hci' : i ∈ ctx.validIndices := by simpa using hci
  simp [processChange, hci', hcl, hres, hoe, hpe]

/-- Witness for C7 at a concrete paragraph and proposal. -/
theorem C7_witness :
    resolveOldTextFromParagraph (some "the cat sat".toList) (some "cat".toList)
        [⟨none, some 0, some 2, none⟩] = some "cat".toList ∧
    ∀ (ctx : Ctx) (i : Int) (nt : List Char),
      ctx.validIndices.contains i = true →
      ctx.paragraphLookup i = some "the cat sat".toList →
      processChange ctx
          (ChangeEntry.obj (some (JsNum.int i)) (some "cat".toList) (some nt))
        = .ok (.accepted ⟨i, "cat".toList, nt⟩) :=
  C7_exact_match_passthrough "the cat sat".toList "cat".toList
    [⟨none, some 0, some 2, none⟩] (by decide) (by decide)

/-- C8: invalid index rejection — a change whose `paraIndex` is a number
outside the set of paragraph indices actually sent is dropped with reason
`invalidIndex` when it is otherwise well-shaped, and no change with such a
`paraIndex` is ever emitted, whatever its `oldText`. -/
theorem C8_invalid_index_rejection (ctx : Ctx) (pi : JsNum)
    (hno : jsSetHas ctx.validIndices (some pi) = false) :
    (∀ ot nt : List Char,
      processChange ctx (ChangeEntry.obj (some pi) (some ot) (some nt))
        = .ok (.dropped .invalidIndex)) ∧
    (∀ (otv ntv : Option (List Char)) (e : ResolvedEdit),
      processChange ctx (ChangeEntry.obj (some pi) otv ntv)
        ≠ .ok (.accepted e)) := by
  constructor
  · intro ot nt
    cases pi with
    | nonInt => simp [processChange]
    | int i =>
      simp only [jsSetHas] at hno
      have hno' : i ∉ ctx.validIndices := by simpa using hno
      simp [processChange, hno']
  · intro otv ntv e hc
    cases otv with
    | none => cases ntv <;> simp [processChange] at hc
    | some ot =>
      cases ntv with
      | none => simp [processChange] at hc
      | some nt =>
        cases pi with
        | nonInt => simp [processChange] at hc
        | int i =>
          simp only [jsSetHas] at hno
          have hno' : i ∉ ctx.validIndices := by simpa using hno
          simp [processChange, hno'] at hc

/-- Witness for C8: index 5 against a single sent paragraph. -/
theorem C8_witness :
    processChange (fullModeCtx [some "a".toList] [])
        (ChangeEntry.obj (some (JsNum.int 5)) (some "a".toList) (some "b".toList))
      = .ok (.dropped .invalidIndex) ∧
    processChange (fullModeCtx [some "a".toList] [])
        (ChangeEntry.obj (some (JsNum.int 5)) none none)
      ≠ .ok (.accepted ⟨5, "a".toList, "b".toList⟩) :=
  ⟨(C8_invalid_index_rejection (fullModeCtx [some "a".toList] []) (JsNum.int 5)
      (by decide)).1 _ _,
    (C8_invalid_index_rejection (fullModeCtx [some "a".toList] []) (JsNum.int 5)
      (by decide)).2 _ _ _⟩

/-- C10: frame property of the replacement text — an accepted edit's
`newText` is exactly the `newText` of the proposed change it came from;
resolution and remapping can only alter `oldText` and `paraIndex`. -/
theorem C10_newText_frame (ctx : Ctx) (c : ChangeEntry) (e : ResolvedEdit)
    (h : processChange ctx c = .ok (.accepted e)) :
    ∃ pi ot, c = ChangeEntry.obj pi ot (some e.newText) :=
  (processChange_accepted ctx c e h).2

/-- Witness for C10 at a concrete accepted change. -/
theorem C10_witness :
    ∃ pi ot,
      ChangeEntry.obj (some (JsNum.int 0)) (some "hello".toList) (some "hi".toList)
        = ChangeEntry.obj pi ot
            (some (⟨0, "hello".toList, "hi".toList⟩ : ResolvedEdit).newText) :=
  C10_newText_frame (fullModeCtx [some "hello world".toList] [])
    (ChangeEntry.obj (some (JsNum.int 0)) (some "hello".toList) (some "hi".toList))
    ⟨0, "hello".toList, "hi".toList⟩ (by decide)

/-- A non-empty list is not `isEmpty`. -/
theorem isEmpty_false_of_ne_nil {l : List Char} (h : l ≠ []) :
    l.isEmpty = false := by
  cases l with
  | nil => exact absurd rfl h
  | cons a t => rfl

/-! ### Claim theorems: resolver-level properties -/

/-- C4: single-comment positional anchor — when the exact and loose steps both
fail against `p`, a lone comment carrying a valid range `0 ≤ start < end ≤
p.length` forces `p.slice(start, end)`, however unrelated to the proposal;
with zero or at least two comments no override applies and resolution fails. -/
theorem C4_single_comment_positional_anchor (p o : List Char) (c : Comment)
    (s e : Int)
    (hexact : ¬ o <:+: p)
    (hloose : looseRepairStep p o = none)
    (hs : c.start = some s) (he : c.«end» = some e)
    (hrange : 0 ≤ s ∧ s < e ∧ e ≤ (p.length : Int)) :
    resolveOldTextFromParagraph (some p) (some o) [c]
      = some (jsSlice p s.toNat e.toNat) ∧
    ∀ cs : List Comment, cs.length ≠ 1 →
      resolveOldTextFromParagraph (some p) (some o) cs = none := by
  obtain ⟨h0, hse, hel⟩ := hrange
  have hplen : 0 < p.length := by omega
  have hpne : p ≠ [] := List.ne_nil_of_length_pos hplen
  have hpe : p.isEmpty = false := isEmpty_false_of_ne_nil hpne
  have hinc : jsIncludes p o = false := by
    cases hj : jsIncludes p o with
    | false => rfl
    | true => exact absurd ((jsIncludes_true_iff _ _).mp hj) hexact
  have hsl : 0 < (jsSlice p s.toNat e.toNat).length := by
    rw [jsSlice_length]
    omega
  have hca : commentAnchorStep p [c] = some (jsSlice p s.toNat e.toNat) := by
    obtain ⟨cp, cst, cen, csel⟩ := c
    change cst = some s at hs
    change cen = some e at he
    subst hs
    subst he
    have hstep : commentAnchorStep p [⟨cp, some s, some e, csel⟩]
        = (match (if 0 ≤ s ∧ s < e ∧ e ≤ (p.length : Int) then
              (if (jsSlice p s.toNat e.toNat).isEmpty = true then none
                else some (jsSlice p s.toNat e.toNat))
              else none : Option (List Char)) with
            | some r => some r
            | none =>
              match csel with
              | some st =>
                if (!st.isEmpty && jsIncludes p st) = true then some st else none
              | none => none) := rfl
    rw [hstep, if_pos ⟨h0, hse, hel⟩, if_neg (by
      rw [isEmpty_false_of_ne_nil (List.ne_nil_of_length_pos hsl)]
      exact Bool.false_ne_true)]
  have main : ∀ cs' : List Comment,
      resolveOldTextFromParagraph (some p) (some o) cs'
        = commentAnchorStep p cs' := by
    intro cs'
    simp only [resolveOldTextFromParagraph]
    rw [hpe]
    simp [hinc, hloose]
  constructor
  · rw [main [c], hca]
  · intro cs' hlen1
    rw [main cs']
    cases cs' with
    | nil => rfl
    | cons a t =>
      cases t with
      | nil => exact absurd rfl hlen1
      | cons b u => rfl

/-- Witness for C4: unrelated proposal, one comment with range `[5,10)`. -/
theorem C4_witness :
    resolveOldTextFromParagraph (some "The quick brown fox".toList)
        (some "zzz".toList) [⟨none, some 5, some 10, none⟩]
      = some (jsSlice "The quick brown fox".toList (Int.toNat 5) (Int.toNat 10)) ∧
    resolveOldTextFromParagraph (some "The quick brown fox".toList)
        (some "zzz".toList) [] = none :=
  ⟨(C4_single_comment_positional_anchor "The quick brown fox".toList
      "zzz".toList ⟨none, some 5, some 10, none⟩ 5 10 (by decide) (by decide)
      rfl rfl (by decide)).1,
    (C4_single_comment_positional_anchor "The quick brown fox".toList
      "zzz".toList ⟨none, some 5, some 10, none⟩ 5 10 (by decide) (by decide)
      rfl rfl (by decide)).2 [] (by decide)⟩

/-- C5 (counterexample): on the spec's own example — paragraph `"The quick
brown fox"`, a single comment with `start=5`, `end=10`, and an unrelated
proposed old text — resolution returns `paragraphText.slice(5,10)`, which is
`"uick "` (four letters and a trailing space), not `"quick"` as the spec
asserts. -/
theorem C5_counterexample :
    resolveOldTextFromParagraph (some "The quick brown fox".toList)
        (some "completely unrelated text".toList)
        [⟨none, some 5, some 10, none⟩]
      = some "uick ".toList ∧
    "uick ".toList ≠ "quick".toList :=
  ⟨by decide, by decide⟩

/-- C5 (amended): resolution does return `paragraphText.slice(5,10)` as the
spec's rule prescribes, but on `"The quick brown fox"` that slice is `"uick "`;
the slice equal to `"quick"` would be `slice(4,9)`. -/
theorem C5_amended_single_comment_override :
    resolveOldTextFromParagraph (some "The quick brown fox".toList)
        (some "completely unrelated text".toList)
        [⟨none, some 5, some 10, none⟩]
      = some (jsSlice "The quick brown fox".toList 5 10) ∧
    jsSlice "The quick brown fox".toList 5 10 = "uick ".toList ∧
    jsSlice "The quick brown fox".toList 4 9 = "quick".toList :=
  ⟨by decide, by decide, by decide⟩

/-- C9 (failing input): with comments `[null]` and a change whose `oldText`
fails direct resolution, the single-comment override reads `anchor.paraIndex`
on `null` and throws a `TypeError` (modelled `.error ()`), so the batch aborts
with an error instead of dropping the edit — including edits later in the
batch that would have been accepted. -/
theorem C9_throws_on_nullish_comment :
    remapUnresolvedChange "zz".toList
        (fullModeCtx [some "a".toList] [CommentEntry.nullish]) = .error () ∧
    processRevise [some "a".toList] [CommentEntry.nullish]
        [ChangeEntry.obj (some (JsNum.int 0)) (some "zz".toList) (some "y".toList)]
      = .error () ∧
    processRevise [some "a".toList] [CommentEntry.nullish]
        [ChangeEntry.obj (some (JsNum.int 0)) (some "zz".toList) (some "y".toList),
          ChangeEntry.obj (some (JsNum.int 0)) (some "a".toList) (some "b".toList)]
      = .error () ∧
    processRevise [some "a".toList] []
        [ChangeEntry.obj (some (JsNum.int 0)) (some "a".toList) (some "b".toList)]
      = .ok [⟨0, "a".toList, "b".toList⟩] :=
  ⟨by decide, by decide, by decide, by decide⟩

/-! ### Idempotence of the loose normalizer -/

/-- The normalizer maps every character either to itself or to one of its four
canonical targets. -/
theorem normalizeLooseChar_cases (c : Char) :
    normalizeLooseChar c = c ∨ normalizeLooseChar c = '\x27' ∨
      normalizeLooseChar c = '"' ∨ normalizeLooseChar c = '-' ∨
      normalizeLooseChar c = ' ' := by
  unfold normalizeLooseChar
  repeat' split
  all_goals simp

/-- The character normalizer is idempotent. -/
theorem normalizeLooseChar_idem (c : Char) :
    normalizeLooseChar (normalizeLooseChar c) = normalizeLooseChar c := by
  rcases normalizeLooseChar_cases c with h | h | h | h | h
  · rw [h]
    exact h
  · rw [h]
    decide
  · rw [h]
    decide
  · rw [h]
    decide
  · rw [h]
    decide

/-- The head of `dropWhile p l` does not satisfy `p`. -/
theorem dropWhile_head_false (p : Char → Bool) (l : List Char) (d : Char)
    (h : (l.dropWhile p).head? = some d) : p d = false := by
  induction l with
  | nil => cases h
  | cons c rest ih =>
    rw [List.dropWhile_cons] at h
    split at h
    · exact ih h
    · rename_i hc
      rw [List.head?_cons, Option.some.injEq] at h
      subst h
      exact Bool.eq_false_iff.mpr hc

/-- The whitespace-run skipper leaves exactly the `dropWhile` of the loose
whitespace predicate. -/
theorem skipWhitespaceRun_fst (l : List Char) (i : Nat) :
    (skipWhitespaceRun l i).1
      = l.dropWhile (fun c => isJsWhitespace (normalizeLooseChar c)) := by
  induction l generalizing i with
  | nil => rfl
  | cons c rest ih =>
    unfold skipWhitespaceRun
    rw [List.dropWhile_cons]
    by_cases hc : isJsWhitespace (normalizeLooseChar c) = true
    · rw [if_pos hc, if_pos hc]
      exact ih (i + 1)
    · rw [if_neg hc, if_neg hc]

/-- Invariant of the normalizer loop: starting from a well-formed accumulator
whose trailing space (if any) is not followed by more whitespace, the produced
text is made of `LooseChar`s with no two adjacent spaces. -/
theorem buildLooseGo_wellformed (fuel : Nat) :
    ∀ (text : List Char) (i : Nat) (out : List Char) (spans : List Span),
      (∀ c ∈ out, LooseChar c) →
      out.Chain' (fun a b => ¬(a = ' ' ∧ b = ' ')) →
      (out.getLast? = some ' ' →
        ∀ d, text.head? = some d → isJsWhitespace (normalizeLooseChar d) = false) →
      (∀ c ∈ (buildLooseGo fuel text i out spans).1, LooseChar c) ∧
        (buildLooseGo fuel text i out spans).1.Chain'
          (fun a b => ¬(a = ' ' ∧ b = ' ')) := by
  induction fuel with
  | zero =>
    intro text i out spans hout hchain _
    exact ⟨hout, hchain⟩
  | succ fuel ih =>
    intro text i out spans hout hchain hlast
    cases text with
    | nil => exact ⟨hout, hchain⟩
    | cons c rest =>
      simp only [buildLooseGo]
      by_cases hw : isJsWhitespace (normalizeLooseChar c) = true
      · rw [if_pos hw]
        have hl' : out.getLast? ≠ some ' ' := fun hl => by
          simpa [hw] using hlast hl c rfl
        have hded : (out.isEmpty || (out.getLast? != some ' ')) = true := by
          simp [bne_iff_ne, hl']
        rw [if_pos hded]
        apply ih
        · intro x hx
          rcases List.mem_append.mp hx with hx | hx
          · exact hout x hx
          · rcases List.mem_singleton.mp hx with rfl
            exact ⟨by decide, fun _ => rfl⟩
        · rw [List.chain'_append]
          refine ⟨hchain, List.chain'_singleton _, ?_⟩
          intro x hx y hy
          rw [Option.mem_def] at hx hy
          rw [List.head?_cons, Option.some.injEq] at hy
          subst hy
          rintro ⟨rfl, -⟩
          exact hl' hx
        · intro _ d hd
          rw [skipWhitespaceRun_fst] at hd
          exact dropWhile_head_false (fun x => isJsWhitespace (normalizeLooseChar x))
            rest d hd
      · rw [if_neg hw]
        apply ih
        · intro x hx
          rcases List.mem_append.mp hx with hx | hx
          · exact hout x hx
          · rcases List.mem_singleton.mp hx with rfl
            exact ⟨normalizeLooseChar_idem c, fun hws => absurd hws hw⟩
        · rw [List.chain'_append]
          refine ⟨hchain, List.chain'_singleton _, ?_⟩
          intro x hx y hy
          rw [Option.mem_def] at hx hy
          rw [List.head?_cons, Option.some.injEq] at hy
          subst hy
          rintro ⟨-, hnc⟩
          apply hw
          rw [hnc]
          decide
        · intro hl' d hd
          exfalso
          rw [List.getLast?_concat, Option.some.injEq] at hl'
          apply hw
          rw [hl']
          decide

/-- The loose text produced by the normalizer is well-formed. -/
theorem buildLoose_wellformed (t : List Char) :
    (∀ c ∈ (buildLooseTextWithSpans t).text, LooseChar c) ∧
      (buildLooseTextWithSpans t).text.Chain' (fun a b => ¬(a = ' ' ∧ b = ' ')) :=
  buildLooseGo_wellformed t.length t 0 [] [] (by simp) (by simp) (by simp)

/-- On a well-formed loose text the normalizer loop is the identity (appended
to its accumulator). -/
theorem buildLooseGo_id (fuel : Nat) :
    ∀ (l : List Char) (i : Nat) (out : List Char) (spans : List Span),
      l.length ≤ fuel →
      (∀ c ∈ l, LooseChar c) →
      l.Chain' (fun a b => ¬(a = ' ' ∧ b = ' ')) →
      (out.getLast? = some ' ' → l.head? ≠ some ' ') →
      (buildLooseGo fuel l i out spans).1 = out ++ l := by
  induction fuel with
  | zero =>
    intro l i out spans hlen _ _ _
    have hnil : l = [] := List.length_eq_zero.mp (Nat.le_zero.mp hlen)
    subst hnil
    simp [buildLooseGo]
  | succ fuel ih =>
    intro l i out spans hlen hchars hchain hlast
    cases l with
    | nil => simp [buildLooseGo]
    | cons c rest =>
      have hcl : LooseChar c := hchars c (List.mem_cons_self ..)
      simp only [buildLooseGo]
      by_cases hw : isJsWhitespace (normalizeLooseChar c) = true
      · rw [if_pos hw]
        have hc' : c = ' ' := hcl.2 (by rw [hcl.1] at hw; exact hw)
        subst hc'
        have hrest : ∀ d, rest.head? = some d →
            isJsWhitespace (normalizeLooseChar d) = false := by
          intro d hd
          cases rest with
          | nil => cases hd
          | cons r rrest =>
            rw [List.head?_cons, Option.some.injEq] at hd
            have hns : ¬(' ' = ' ' ∧ r = ' ') := (List.chain'_cons.mp hchain).1
            have hds : r ≠ ' ' := fun hde => hns ⟨rfl, hde⟩
            have hdl : LooseChar r := hchars r (by simp)
            rw [← hd]
            cases hwd : isJsWhitespace (normalizeLooseChar r) with
            | false => rfl
            | true =>
              rw [hdl.1] at hwd
              exact absurd (hdl.2 hwd) hds
        have hskip : skipWhitespaceRun rest (i + 1) = (rest, i + 1) := by
          cases rest with
          | nil => rfl
          | cons r rrest =>
            unfold skipWhitespaceRun
            rw [if_neg (by simp [hrest r rfl])]
        have hl' : out.getLast? ≠ some ' ' := fun h => hlast h rfl
        have hded : (out.isEmpty || (out.getLast? != some ' ')) = true := by
          simp [bne_iff_ne, hl']
        rw [hskip, if_pos hded]
        rw [ih rest (i + 1) (out ++ [' ']) _ (by simpa using Nat.le_of_succ_le_succ hlen)
          (fun x hx => hchars x (List.mem_cons_of_mem _ hx)) hchain.tail ?_]
        · simp
        · intro _
          cases rest with
          | nil => simp
          | cons r rrest =>
            have hns : ¬(' ' = ' ' ∧ r = ' ') := (List.chain'_cons.mp hchain).1
            simp only [List.head?_cons, ne_eq, Option.some.injEq]
            intro hre
            exact hns ⟨rfl, hre⟩
      · rw [if_neg hw]
        rw [hcl.1]
        rw [ih rest (i + 1) (out ++ [c]) _ (by simpa using Nat.le_of_succ_le_succ hlen)
          (fun x hx => hchars x (List.mem_cons_of_mem _ hx)) hchain.tail ?_]
        · simp
        · intro hl'
          exfalso
          rw [List.getLast?_concat, Option.some.injEq] at hl'
          apply hw
          rw [hcl.1, hl']
          decide

/-- C3: normalization is idempotent — running the normalizer on its own loose
output returns the same loose text, for every input string. -/
theorem C3_normalize_idempotent (t : List Char) :
    (buildLooseTextWithSpans (buildLooseTextWithSpans t).text).text
      = (buildLooseTextWithSpans t).text := by
  obtain ⟨hchars, hchain⟩ := buildLoose_wellformed t
  calc (buildLooseTextWithSpans (buildLooseTextWithSpans t).text).text
      = (buildLooseGo (buildLooseTextWithSpans t).text.length
          (buildLooseTextWithSpans t).text 0 [] []).1 := rfl
    _ = [] ++ (buildLooseTextWithSpans t).text :=
        buildLooseGo_id _ _ 0 [] [] (Nat.le_refl _) hchars hchain (by simp)
    _ = (buildLooseTextWithSpans t).text := by simp

/-! ### Loose repair with span back-mapping -/

/-- A non-empty list does not satisfy the `isEmpty` test. -/
theorem not_isEmpty_of_ne_nil {l : List Char} (h : l ≠ []) :
    ¬ (l.isEmpty = true) := by
  rw [isEmpty_false_of_ne_nil h]
  exact Bool.false_ne_true

/-- The loop of `buildLooseTextWithSpans` pushes to `out` and `spans`
together, so their lengths stay equal. -/
theorem buildLooseGo_lengths (fuel : Nat) :
    ∀ (text : List Char) (i : Nat) (out : List Char) (spans : List Span),
      out.length = spans.length →
      ((buildLooseGo fuel text i out spans).1).length
        = ((buildLooseGo fuel text i out spans).2).length := by
  induction fuel with
  | zero =>
    intro text i out spans h
    exact h
  | succ fuel ih =>
    intro text i out spans h
    cases text with
    | nil => exact h
    | cons c rest =>
      simp only [buildLooseGo]
      by_cases hw : isJsWhitespace (normalizeLooseChar c) = true
      · rw [if_pos hw]
        by_cases hd : (out.isEmpty || (out.getLast? != some ' ')) = true
        · rw [if_pos hd]
          exact ih _ _ _ _ (by simp [h])
        · rw [if_neg hd]
          exact ih _ _ _ _ h
      · rw [if_neg hw]
        exact ih _ _ _ _ (by simp [h])

/-- One span is recorded per loose character. -/
theorem buildLoose_spans_length (t : List Char) :
    (buildLooseTextWithSpans t).spans.length
      = (buildLooseTextWithSpans t).text.length :=
  (buildLooseGo_lengths t.length t 0 [] [] rfl).symm

/-- A found occurrence fits inside the haystack. -/
theorem jsIndexOf_some_bounds (hay needle : List Char) (idx : Nat)
    (h : jsIndexOf hay needle = some idx) (hne : needle ≠ []) :
    idx + needle.length ≤ hay.length := by
  have hp := jsIndexOf_some_drop hay needle idx h
  have hlen := hp.length_le
  rw [List.length_drop] at hlen
  have hpos : 0 < needle.length := List.length_pos.mpr hne
  omega

/-- C2: loose substring repair with span back-mapping — when the proposal is
not a literal substring but its trimmed loose form occurs in the loose
paragraph at first index `idx`, the spans of the first and last loose
characters of that occurrence exist, and the resolver returns
`paragraphText.slice(firstSpan.start, lastSpan.end)` — the exact original
text — falling through to the comment step when that slice would be empty or
inverted. -/
theorem C2_loose_repair_span_backmapping (p o : List Char) (cs : List Comment)
    (idx : Nat)
    (hexact : ¬ o <:+: p)
    (hne : jsTrim (buildLooseTextWithSpans o).text ≠ [])
    (hfind : jsIndexOf (buildLooseTextWithSpans p).text
        (jsTrim (buildLooseTextWithSpans o).text) = some idx) :
    ∃ startSpan endSpan,
      (buildLooseTextWithSpans p).spans.get? idx = some startSpan ∧
      (buildLooseTextWithSpans p).spans.get?
          (idx + (jsTrim (buildLooseTextWithSpans o).text).length - 1)
        = some endSpan ∧
      (startSpan.start < endSpan.«end» →
        resolveOldTextFromParagraph (some p) (some o) cs
          = some (jsSlice p startSpan.start endSpan.«end»)) ∧
      (¬ startSpan.start < endSpan.«end» →
        resolveOldTextFromParagraph (some p) (some o) cs
          = commentAnchorStep p cs) := by
  have hone : o ≠ [] := by
    rintro rfl
    exact hne rfl
  have hpne : p ≠ [] := by
    rintro rfl
    rw [show (buildLooseTextWithSpans ([] : List Char)).text = [] from rfl] at hfind
    rcases hl : jsTrim (buildLooseTextWithSpans o).text with _ | ⟨a, t⟩
    · exact hne hl
    · rw [hl] at hfind
      simp [jsIndexOf, List.isPrefixOf] at hfind
  have hinc : jsIncludes p o = false := by
    cases hj : jsIncludes p o with
    | false => rfl
    | true => exact absurd ((jsIncludes_true_iff _ _).mp hj) hexact
  have hLpos : 0 < (jsTrim (buildLooseTextWithSpans o).text).length :=
    List.length_pos.mpr hne
  have hb := jsIndexOf_some_bounds _ _ _ hfind hne
  have h1 : idx < (buildLooseTextWithSpans p).spans.length := by
    rw [buildLoose_spans_length]
    omega
  have h2 : idx + (jsTrim (buildLooseTextWithSpans o).text).length - 1
      < (buildLooseTextWithSpans p).spans.length := by
    rw [buildLoose_spans_length]
    omega
  have hloosestep : looseRepairStep p o
      = (if ((buildLooseTextWithSpans p).spans.get ⟨idx, h1⟩).start
            < ((buildLooseTextWithSpans p).spans.get
                ⟨idx + (jsTrim (buildLooseTextWithSpans o).text).length - 1, h2⟩).«end» then
          some (jsSlice p ((buildLooseTextWithSpans p).spans.get ⟨idx, h1⟩).start
            ((buildLooseTextWithSpans p).spans.get
              ⟨idx + (jsTrim (buildLooseTextWithSpans o).text).length - 1, h2⟩).«end»)
        else none) := by
    calc looseRepairStep p o
        = (match (buildLooseTextWithSpans p).spans.get? idx,
              (buildLooseTextWithSpans p).spans.get?
                (idx + (jsTrim (buildLooseTextWithSpans o).text).length - 1) with
            | some startSpan, some endSpan =>
              if startSpan.start < endSpan.«end» then
                some (jsSlice p startSpan.start endSpan.«end»)
              else none
            | _, _ => none) := by
          simp only [looseRepairStep]
          rw [if_neg (not_isEmpty_of_ne_nil hone),
            if_neg (not_isEmpty_of_ne_nil hne), hfind]
      _ = _ := by
          rw [List.get?_eq_get h1, List.get?_eq_get h2]
  have hres : resolveOldTextFromParagraph (some p) (some o) cs
      = (match looseRepairStep p o with
          | some r => some r
          | none => commentAnchorStep p cs) := by
    simp only [resolveOldTextFromParagraph]
    rw [isEmpty_false_of_ne_nil hpne]
    simp [hinc]
  refine ⟨(buildLooseTextWithSpans p).spans.get ⟨idx, h1⟩,
    (buildLooseTextWithSpans p).spans.get
      ⟨idx + (jsTrim (buildLooseTextWithSpans o).text).length - 1, h2⟩,
    List.get?_eq_get h1, List.get?_eq_get h2, ?_, ?_⟩
  · intro hlt
    rw [hres, hloosestep, if_pos hlt]
  · intro hge
    rw [hres, hloosestep, if_neg hge]

/-- Witness for C2 at the spec's example: typographic paragraph, plain
proposal, repaired to the original text with the em dash. -/
theorem C2_witness :
    (¬ "hello-world".toList <:+: "He said “hello—world”".toList) ∧
    resolveOldTextFromParagraph (some "He said “hello—world”".toList)
        (some "hello-world".toList) [] = some "hello—world".toList := by
  refine ⟨by decide, ?_⟩
  obtain ⟨s1, s2, hs1, hs2, himp, -⟩ :=
    C2_loose_repair_span_backmapping "He said “hello—world”".toList
      "hello-world".toList [] 9 (by decide) (by decide) (by decide)
  rw [show (buildLooseTextWithSpans "He said “hello—world”".toList).spans.get? 9
      = some ⟨9, 10⟩ from by decide] at hs1
  rw [show (buildLooseTextWithSpans "He said “hello—world”".toList).spans.get?
      (9 + (jsTrim (buildLooseTextWithSpans "hello-world".toList).text).length - 1)
      = some ⟨19, 20⟩ from by decide] at hs2
  rw [Option.some.injEq] at hs1 hs2
  subst hs1
  subst hs2
  rw [himp (by decide)]
  decide

/-! ### The unique exact-substring search and remap reason -/

/-- Loop characterization: starting from at most one collected match, the scan
reports `some p` exactly when the collected matches plus the matching
remaining indices are exactly `[p]`. -/
theorem findUniqueExactGo_spec (lookup : Int → Option (List Char))
    (text : List Char) (p : Int) :
    ∀ (rest ms : List Int), ms.length ≤ 1 →
      (findUniqueExactGo lookup text rest ms = some p ↔
        ms ++ rest.filter (paragraphHasExact lookup text) = [p]) := by
  intro rest
  induction rest with
  | nil =>
    intro ms hms
    rw [List.filter_nil, List.append_nil]
    cases ms with
    | nil => simp [findUniqueExactGo]
    | cons a t =>
      cases t with
      | nil => simp [findUniqueExactGo]
      | cons b u =>
        simp only [List.length_cons] at hms
        omega
  | cons idx rest ih =>
    intro ms hms
    cases hl : lookup idx with
    | none =>
      have hocc : paragraphHasExact lookup text idx = false := by
        simp [paragraphHasExact, hl]
      have hgo : findUniqueExactGo lookup text (idx :: rest) ms
          = if ms.length > 1 then none
            else findUniqueExactGo lookup text rest ms := by
        simp only [findUniqueExactGo, hl]
      rw [hgo, if_neg (by omega), List.filter_cons, hocc]
      simpa using ih ms hms
    | some pt =>
      cases hj : jsIncludes pt text with
      | false =>
        have hocc : paragraphHasExact lookup text idx = false := by
          simp [paragraphHasExact, hl, hj]
        have hgo : findUniqueExactGo lookup text (idx :: rest) ms
            = if ms.length > 1 then none
              else findUniqueExactGo lookup text rest ms := by
          simp [findUniqueExactGo, hl, hj]
        rw [hgo, if_neg (by omega), List.filter_cons, hocc]
        simpa using ih ms hms
      | true =>
        have hocc : paragraphHasExact lookup text idx = true := by
          simp [paragraphHasExact, hl, hj]
        have hgo : findUniqueExactGo lookup text (idx :: rest) ms
            = if (ms ++ [idx]).length > 1 then none
              else findUniqueExactGo lookup text rest (ms ++ [idx]) := by
          simp [findUniqueExactGo, hl, hj]
        rw [hgo, List.filter_cons, hocc, if_pos rfl]
        by_cases hlen : (ms ++ [idx]).length > 1
        · rw [if_pos hlen]
          constructor
          · intro h
            cases h
          · intro h
            have h1 := congrArg List.length h
            simp only [List.length_append, List.length_cons,
              List.length_nil] at h1 hlen
            omega
        · rw [if_neg hlen]
          rw [ih (ms ++ [idx]) (by
            simp only [List.length_append, List.length_cons,
              List.length_nil] at hlen ⊢
            omega)]
          rw [List.append_assoc]
          exact Iff.rfl

/-- `findUniqueParagraphByExactText` succeeds exactly when the filtered list
of matching sent paragraphs is a singleton. -/
theorem findUniqueParagraphByExactText_iff (lookup : Int → Option (List Char))
    (validIndices : List Int) (text : List Char) (p : Int) :
    findUniqueParagraphByExactText lookup validIndices text = some p ↔
      text ≠ [] ∧
        validIndices.filter (paragraphHasExact lookup text) = [p] := by
  unfold findUniqueParagraphByExactText
  cases text with
  | nil => simp
  | cons a t =>
    rw [if_neg (by simp)]
    rw [findUniqueExactGo_spec lookup (a :: t) p validIndices [] (by simp)]
    simp

/-- For a duplicate-free index list, the filter is a singleton `[p]` exactly
when `p` is the unique matching index. -/
theorem filter_eq_singleton_iff_unique (l : List Int) (q : Int → Bool)
    (p : Int) (hnd : l.Nodup) :
    l.filter q = [p] ↔
      p ∈ l ∧ q p = true ∧ ∀ r ∈ l, q r = true → r = p := by
  constructor
  · intro h
    have hp : p ∈ l.filter q := by
      rw [h]
      simp
    rcases List.mem_filter.mp hp with ⟨hl, hq⟩
    refine ⟨hl, hq, ?_⟩
    intro r hr hqr
    have hrf : r ∈ l.filter q := List.mem_filter.mpr ⟨hr, hqr⟩
    rw [h] at hrf
    simpa using hrf
  · rintro ⟨hp, hq, huniq⟩
    have hnf : (l.filter q).Nodup := hnd.filter q
    have hmem : p ∈ l.filter q := List.mem_filter.mpr ⟨hp, hq⟩
    have hall : ∀ x ∈ l.filter q, x = p := by
      intro x hx
      rcases List.mem_filter.mp hx with ⟨hx1, hx2⟩
      exact huniq x hx1 hx2
    cases hf : l.filter q with
    | nil =>
      rw [hf] at hmem
      cases hmem
    | cons a t =>
      rw [hf] at hall hnf
      have ha : a = p := hall a (by simp)
      cases t with
      | nil => rw [ha]
      | cons b u =>
        have hb : b = p := hall b (by simp)
        exact absurd (by rw [ha, hb]; exact List.mem_cons_self .. : a ∈ b :: u)
          (List.nodup_cons.mp hnf).1

/-- A non-empty text occurring in a looked-up paragraph resolves to itself
(the exact-substring step of the resolver). -/
theorem resolve_exact_of_includes (p o : List Char) (cs : List Comment)
    (ho : o ≠ []) (hin : jsIncludes p o = true) :
    resolveOldTextFromParagraph (some p) (some o) cs = some o := by
  have hoin := (jsIncludes_true_iff p o).mp hin
  have hpne : p ≠ [] := by
    rintro rfl
    exact ho (List.infix_nil.mp hoin)
  simp only [resolveOldTextFromParagraph]
  rw [isEmpty_false_of_ne_nil hpne]
  simp [isEmpty_false_of_ne_nil ho, hin]

/-- When the unique exact search fires, the exact remap step succeeds with the
unchanged old text and the `unique-exact` reason. -/
theorem remapByExactSearch_eq (ot : List Char) (ctx : Ctx) (p : Int)
    (hu : findUniqueParagraphByExactText ctx.paragraphLookup
        ctx.validIndices ot = some p) :
    remapByExactSearch ot ctx = some ⟨some (JsNum.int p), ot, "unique-exact"⟩ := by
  obtain ⟨hot, hfil⟩ := (findUniqueParagraphByExactText_iff _ _ _ _).mp hu
  have hocc : paragraphHasExact ctx.paragraphLookup ot p = true := by
    have hp : p ∈ ctx.validIndices.filter (paragraphHasExact ctx.paragraphLookup ot) := by
      rw [hfil]
      simp
    exact (List.mem_filter.mp hp).2
  cases hlk : ctx.paragraphLookup p with
  | none =>
    unfold paragraphHasExact at hocc
    rw [hlk] at hocc
    simp at hocc
  | some s =>
    unfold paragraphHasExact at hocc
    rw [hlk] at hocc
    simp only at hocc
    have hres := resolve_exact_of_includes s ot
      (commentsByPara ctx.comments (JsNum.int p)) hot hocc
    calc remapByExactSearch ot ctx
        = (match resolveOldTextFromParagraph (ctx.paragraphLookup p) (some ot)
              (commentsByPara ctx.comments (JsNum.int p)) with
            | some r =>
              if r.isEmpty then none
              else some ⟨some (JsNum.int p), r, "unique-exact"⟩
            | none => none) := by
          simp only [remapByExactSearch]
          rw [hu]
      _ = (if ot.isEmpty then none
            else some ⟨some (JsNum.int p), ot, "unique-exact"⟩) := by
          rw [hlk, hres]
      _ = some ⟨some (JsNum.int p), ot, "unique-exact"⟩ := by
          rw [if_neg (not_isEmpty_of_ne_nil hot)]

/-- The loose remap step always tags `unique-loose`. -/
theorem remapByLooseSearch_reason (ot : List Char) (ctx : Ctx) (r : RemapResult)
    (h : remapByLooseSearch ot ctx = some r) : r.reason = "unique-loose" := by
  unfold remapByLooseSearch at h
  split at h
  · split at h
    · split at h
      · cases h
      · cases h
        rfl
    · cases h
  · cases h

/-- A successful exact remap step comes from a successful unique search and
tags `unique-exact`. -/
theorem remapByExactSearch_shape (ot : List Char) (ctx : Ctx) (r : RemapResult)
    (h : remapByExactSearch ot ctx = some r) :
    ∃ idx rr,
      findUniqueParagraphByExactText ctx.paragraphLookup ctx.validIndices ot
        = some idx ∧ r = ⟨some (JsNum.int idx), rr, "unique-exact"⟩ := by
  unfold remapByExactSearch at h
  split at h
  · rename_i idx hf
    split at h
    · rename_i rr hr
      split at h
      · cases h
      · cases h
        exact ⟨idx, rr, hf, rfl⟩
    · cases h
  · cases h

/-- C6: unique-exact remap and ambiguity refusal — provided the global
single-comment override neither fired nor threw, the remapper resolves to
paragraph `p` with reason `unique-exact` and the unchanged old text precisely
when the old text is non-empty and occurs in exactly one sent paragraph,
namely `p`; and whenever the number of matching paragraphs differs from one
(zero or at least two), the exact search reports nothing. -/
theorem C6_unique_exact_remap (ctx : Ctx) (ot : List Char) (p : Int)
    (hnd : ctx.validIndices.Nodup)
    (hover : singleCommentOverrideStep ot ctx = .ok none) :
    (findUniqueParagraphByExactText ctx.paragraphLookup ctx.validIndices ot
        = some p ↔
      ot ≠ [] ∧ p ∈ ctx.validIndices ∧
        paragraphHasExact ctx.paragraphLookup ot p = true ∧
        ∀ q ∈ ctx.validIndices,
          paragraphHasExact ctx.paragraphLookup ot q = true → q = p) ∧
    (remapUnresolvedChange ot ctx
        = .ok (some ⟨some (JsNum.int p), ot, "unique-exact"⟩) ↔
      findUniqueParagraphByExactText ctx.paragraphLookup ctx.validIndices ot
        = some p) ∧
    ((ctx.validIndices.filter
        (paragraphHasExact ctx.paragraphLookup ot)).length ≠ 1 →
      findUniqueParagraphByExactText ctx.paragraphLookup ctx.validIndices ot
        = none) := by
  refine ⟨?_, ⟨?_, ?_⟩, ?_⟩
  · rw [findUniqueParagraphByExactText_iff]
    exact and_congr_right fun _ => filter_eq_singleton_iff_unique _ _ _ hnd
  · intro h
    unfold remapUnresolvedChange at h
    rw [hover] at h
    simp only at h
    cases hex : remapByExactSearch ot ctx with
    | some r =>
      rw [hex] at h
      simp only [Except.ok.injEq, Option.some.injEq] at h
      subst h
      rcases remapByExactSearch_shape _ _ _ hex with ⟨idx, rr, hf, heq⟩
      have hpi : p = idx := by
        have hpe := congrArg RemapResult.paraIndex heq
        simpa using hpe
      rw [hpi]
      exact hf
    | none =>
      rw [hex] at h
      simp only at h
      have hl : remapByLooseSearch ot ctx
          = some ⟨some (JsNum.int p), ot, "unique-exact"⟩ := by
        injection h
      have hr := remapByLooseSearch_reason _ _ _ hl
      exact absurd (show ("unique-exact" : String) = "unique-loose" from hr)
        (by decide)
  · intro hu
    calc remapUnresolvedChange ot ctx
        = (match remapByExactSearch ot ctx with
            | some r => .ok (some r)
            | none => .ok (remapByLooseSearch ot ctx)) := by
          simp only [remapUnresolvedChange]
          rw [hover]
      _ = .ok (some ⟨some (JsNum.int p), ot, "unique-exact"⟩) := by
          rw [remapByExactSearch_eq ot ctx p hu]
  · intro hn
    cases hfind : findUniqueParagraphByExactText ctx.paragraphLookup
        ctx.validIndices ot with
    | none => rfl
    | some q =>
      rcases (findUniqueParagraphByExactText_iff _ _ _ _).mp hfind with ⟨-, hfil⟩
      rw [hfil] at hn
      simp at hn

/-- Witness for C6: `"xy"` occurs only in the second of two sent paragraphs,
and the remapper relocates there with reason `unique-exact`. -/
theorem C6_witness :
    remapUnresolvedChange "xy".toList
        (fullModeCtx [some "abc".toList, some "xyz".toList] [])
      = .ok (some ⟨some (JsNum.int 1), "xy".toList, "unique-exact"⟩) ∧
    findUniqueParagraphByExactText
        (fullModeCtx [some "abc".toList, some "xyz".toList] []).paragraphLookup
        (fullModeCtx [some "abc".toList, some "xyz".toList] []).validIndices
        "xy".toList = some 1 := by
  have h := C6_unique_exact_remap
    (fullModeCtx [some "abc".toList, some "xyz".toList] []) "xy".toList 1
    (by decide) (by decide)
  have hf := h.1.mpr (by decide)
  exact ⟨h.2.1.mpr hf, hf⟩
